import Mathlib

/-!
Verification development for the nsmindia file-manager client.

The definitions below are shallow embeddings of the TypeScript source:
  * the key-transform utility of the API client adapter
    (src/unnamed/part_008, `transformKeys` / `isSkippableObject`),
  * the state-store reducer and imperative helpers of the
    `FileManagerProvider` (src/unnamed/part_011), and
  * the pure sort utility (src/unnamed/part_007, `sortFiles`).

JavaScript objects are embedded as association lists in insertion order
(all keys involved are non-index strings, for which JS preserves
insertion order); JS `Set` values are embedded as duplicate-free lists;
JS `Map` values as association lists with unique keys; `undefined` and
`null` member accesses as `Option`.
-/

namespace FileManager

/-! ## Upload state (part_011 lines 18-23 / 437-442, `UploadProgress`) -/

/-- The status union of `UploadProgress`:
`"uploading" | "completed" | "error"`. -/
inductive UploadStatus where
  | uploading
  | completed
  | error
deriving DecidableEq, Repr

/-- `UploadProgress` record from part_011. Progress is a JS number; the
values dispatched by the SSE handlers are integers. -/
structure UploadProgress where
  id : String
  fileName : String
  progress : Int
  status : UploadStatus
deriving DecidableEq, Repr

/-- The `UPDATE_UPLOAD` branch of `fileManagerReducer`
(part_011 lines 638-650): maps over `state.uploads`, replacing the
progress and status of every upload whose id matches the payload. -/
def updateUploadReducer (uploads : List UploadProgress) (pid : String)
    (progress : Int) (status : UploadStatus) : List UploadProgress :=
  uploads.map fun u =>
    if u.id = pid then { u with progress := progress, status := status } else u

/-! ## The `timeout` SSE listener of `addUpload` (part_011 lines 1054-1074)

The listener parses `event.data || "{}"`; on parse success it dispatches
`UPDATE_UPLOAD` with `progress := typeof data.progress === "number" ?
data.progress : 0` and `status := "uploading"`; on a parse error it
dispatches `progress := 0, status := "uploading"`. -/

/-- Outcome of `JSON.parse(event.data || "{}")` in the timeout listener:
either a parsed object whose `progress` field is a number (`some`) or
absent / non-numeric (`none`), or a parse failure. -/
inductive TimeoutParse where
  | ok (progress : Option Int)
  | parseError
deriving DecidableEq, Repr

/-- The progress value the timeout listener dispatches. -/
def timeoutProgress : TimeoutParse → Int
  | .ok p => p.getD 0
  | .parseError => 0

/-- State of the uploads list after the `timeout` listener of `addUpload`
fires for upload `uploadId` with parsed event `ev`
(part_011 lines 1054-1074). -/
def onUploadTimeout (uploads : List UploadProgress) (uploadId : String)
    (ev : TimeoutParse) : List UploadProgress :=
  match ev with
  | .ok p => updateUploadReducer uploads uploadId (p.getD 0) .uploading
  | .parseError => updateUploadReducer uploads uploadId 0 .uploading

/-! ## The `onerror` handlers of `addUpload`

Two variants exist in the repository.  The `FileManagerProvider` of
part_011 (lines 1088-1093) only closes the `EventSource` and removes it
from `uploadEventSourcesRef`; the variant in
src/src/context/FileManagerContext.tsx (lines 366-374) additionally
dispatches `UPDATE_UPLOAD` with `progress: 0, status: "error"`.
The handle map `uploadEventSourcesRef` is embedded as the list of ids
holding an open `EventSource`; `Map.delete` removes exactly the key. -/

/-- Combined uploads / open-SSE-handle state touched by `addUpload`. -/
structure SseUploadState where
  uploads : List UploadProgress
  handles : List String
deriving DecidableEq, Repr

/-- `onerror` of `addUpload` in part_011 (lines 1088-1093): close the
EventSource and drop it from the ref map; no dispatch at all. -/
def onUploadError (s : SseUploadState) (uploadId : String) : SseUploadState :=
  { uploads := s.uploads
    handles := s.handles.filter (fun h => h ≠ uploadId) }

/-- `onerror` of `addUpload` in src/src/context/FileManagerContext.tsx
(lines 366-374): dispatch `UPDATE_UPLOAD` with progress 0 and status
`"error"`, then close the EventSource and drop it from the ref map. -/
def onUploadErrorLegacy (s : SseUploadState) (uploadId : String) :
    SseUploadState :=
  { uploads := updateUploadReducer s.uploads uploadId 0 .error
    handles := s.handles.filter (fun h => h ≠ uploadId) }

/-! ## `ADJUST_FOLDER_COUNTS` (part_011 lines 828-870) -/

/-- Entry of `rootFoldersWithCounts`.  The reducer reads the count
fields through `(f as any).totalChildFolders ?? 0`, so they are embedded
as `Option Int` with `?? 0` as `Option.getD 0`. -/
structure RootFolderCounts where
  id : String
  totalChildFolders : Option Int
  totalChildFiles : Option Int
deriving DecidableEq, Repr

/-- The `type` union of `FileItem`: `"file" | "folder"`. -/
inductive FType where
  | file
  | folder
deriving DecidableEq, Repr

/-- Entry of a `mainChildrenByParent` list as inspected by
`ADJUST_FOLDER_COUNTS`: id, `type`, and the two optional count badges
(`it.totalChildFolders ?? 0`). -/
structure ChildItemCounts where
  id : String
  ftype : FType
  totalChildFolders : Option Int
  totalChildFiles : Option Int
deriving DecidableEq, Repr

/-- The slice of `FileManagerState` read and written by
`ADJUST_FOLDER_COUNTS`: the root-folders-with-counts list and the
per-parent grid-children cache. -/
structure CountsState where
  rootFoldersWithCounts : List RootFolderCounts
  mainChildrenByParent : List (String × List ChildItemCounts)
deriving DecidableEq, Repr

/-- The `ADJUST_FOLDER_COUNTS` branch of `fileManagerReducer`
(part_011 lines 828-870).  `deltaFolders` / `deltaFiles` default to 0
when absent from the payload.  Every matching entry's counts become
`Math.max(0, (old ?? 0) + delta)`. -/
def adjustFolderCounts (s : CountsState) (folderId : String)
    (deltaFolders deltaFiles : Option Int) : CountsState :=
  let dF := deltaFolders.getD 0
  let dFi := deltaFiles.getD 0
  let updatedRoot := s.rootFoldersWithCounts.map fun f =>
    if f.id = folderId then
      { f with
        totalChildFolders := some (max 0 (f.totalChildFolders.getD 0 + dF))
        totalChildFiles := some (max 0 (f.totalChildFiles.getD 0 + dFi)) }
    else f
  let updatedChildren := s.mainChildrenByParent.map fun entry =>
    (entry.1, entry.2.map fun it =>
      if it.id = folderId ∧ it.ftype = .folder then
        { it with
          totalChildFolders := some (max 0 (it.totalChildFolders.getD 0 + dF))
          totalChildFiles := some (max 0 (it.totalChildFiles.getD 0 + dFi)) }
      else it)
  { rootFoldersWithCounts := updatedRoot
    mainChildrenByParent := updatedChildren }

/-- All displayed child-count badges of a `CountsState` are nonnegative
(the display reads a missing field as 0 via `?? 0`). -/
def CountsNonNeg (s : CountsState) : Prop :=
  (∀ f ∈ s.rootFoldersWithCounts,
      0 ≤ f.totalChildFolders.getD 0 ∧ 0 ≤ f.totalChildFiles.getD 0) ∧
  (∀ entry ∈ s.mainChildrenByParent, ∀ it ∈ entry.2,
      0 ≤ it.totalChildFolders.getD 0 ∧ 0 ≤ it.totalChildFiles.getD 0)

/-- Fold a whole sequence of `ADJUST_FOLDER_COUNTS` applications
(in order) over a state. -/
def adjustMany (s : CountsState)
    (ops : List (String × Option Int × Option Int)) : CountsState :=
  ops.foldl (fun st op => adjustFolderCounts st op.1 op.2.1 op.2.2) s

/-! ## `getPathSegmentsFor` (part_011 lines 984-1000) -/

/-- Value of `folderMetaById`: `mapping id -> { name, parentId }`. -/
structure FolderMeta where
  name : String
  parentId : Option String
deriving DecidableEq, Repr

/-- Lookup in the `folderMetaById` record (a JS object keyed by id). -/
def metaLookup (meta : List (String × FolderMeta)) (id : String) :
    Option FolderMeta :=
  (meta.find? (fun e => e.1 = id)).map (·.2)

/-- The `while (cursor && guard < 100)` loop of `getPathSegmentsFor`:
walks `parentId` links upward, pushing each name, for at most `fuel`
iterations (the source starts with `guard = 0` and bound 100, i.e.
`fuel = 100`), stopping when the cursor is null or has no metadata. -/
def segNamesLoop (meta : List (String × FolderMeta)) :
    Nat → Option String → List String → List String
  | 0, _, names => names
  | _, none, names => names
  | fuel + 1, some c, names =>
    match metaLookup meta c with
    | none => names
    | some m => segNamesLoop meta fuel m.parentId (names ++ [m.name])

/-- `getPathSegmentsFor` (part_011 lines 984-1000): `["Root"]` for a
null id, else `["Root", ...names.reverse()]` where `names` is collected
by the bounded upward walk. -/
def getPathSegmentsFor (meta : List (String × FolderMeta))
    (folderId : Option String) : List String :=
  match folderId with
  | none => ["Root"]
  | some c => "Root" :: (segNamesLoop meta 100 (some c) []).reverse

/-! ## Theorems: C10, C6, C7, C3 -/

/-- The name-collecting loop grows by at most one name per unit of fuel. -/
theorem segNamesLoop_length_le (meta : List (String × FolderMeta)) :
    ∀ (fuel : Nat) (c : Option String) (names : List String),
      (segNamesLoop meta fuel c names).length ≤ names.length + fuel := by
  intro fuel
  induction fuel with
  | zero => intro c names; cases c <;> simp [segNamesLoop]
  | succ f ih =>
    intro c names
    cases c with
    | none => simp [segNamesLoop]
    | some cur =>
      simp only [segNamesLoop]
      cases metaLookup meta cur with
      | none => simp
      | some m =>
        calc (segNamesLoop meta f m.parentId (names ++ [m.name])).length
            ≤ (names ++ [m.name]).length + f := ih m.parentId (names ++ [m.name])
          _ = names.length + (f + 1) := by simp; omega

/-- Claim C10: `getPathSegmentsFor` terminates for every input (the
upward walk over `folderMetaById` is bounded to 100 steps, so the result
carries at most 100 names after the root marker), its result always has
the literal `"Root"` as its first element, and for a null folder id it
returns exactly `["Root"]`. -/
theorem getPathSegmentsFor_root_spec (meta : List (String × FolderMeta))
    (folderId : Option String) :
    getPathSegmentsFor meta none = ["Root"] ∧
    ∃ rest, getPathSegmentsFor meta folderId = "Root" :: rest ∧
      rest.length ≤ 100 := by
  refine ⟨rfl, ?_⟩
  cases folderId with
  | none => exact ⟨[], rfl, by simp⟩
  | some c =>
    refine ⟨(segNamesLoop meta 100 (some c) []).reverse, rfl, ?_⟩
    simpa using segNamesLoop_length_le meta 100 (some c) []

/-- Claim C6: a `timeout` SSE event leaves every matching upload task in
status `"uploading"` (never `"error"`, never `"completed"`), and sets
its progress to the event's numeric `progress` field when present,
resetting to 0 otherwise (including on a parse error). -/
theorem timeout_keeps_uploading (uploads : List UploadProgress)
    (tid : String) (ev : TimeoutParse) (u : UploadProgress)
    (hu : u ∈ onUploadTimeout uploads tid ev) (hid : u.id = tid) :
    u.status = .uploading ∧ u.status ≠ .error ∧ u.status ≠ .completed ∧
      u.progress = timeoutProgress ev := by
  have hmain : u.status = .uploading ∧ u.progress = timeoutProgress ev := by
    cases ev with
    | ok p =>
      simp only [onUploadTimeout, updateUploadReducer, List.mem_map] at hu
      obtain ⟨v, _, hv⟩ := hu
      by_cases h : v.id = tid
      · simp [h] at hv; cases hv; simp [timeoutProgress]
      · simp [h] at hv; subst hv; exact absurd hid h
    | parseError =>
      simp only [onUploadTimeout, updateUploadReducer, List.mem_map] at hu
      obtain ⟨v, _, hv⟩ := hu
      by_cases h : v.id = tid
      · simp [h] at hv; cases hv; simp [timeoutProgress]
      · simp [h] at hv; subst hv; exact absurd hid h
  refine ⟨hmain.1, ?_, ?_, hmain.2⟩ <;> simp [hmain.1]

/-- Concrete upload list for the C6 witness: a task at 40% in status
`uploading` receives a `timeout` event with no numeric progress field. -/
def timeoutExampleUploads : List UploadProgress :=
  [⟨"u1", "report.pdf", 40, .uploading⟩]

/-- The task produced by the timeout listener on the concrete example:
still uploading, progress reset to 0. -/
def timeoutResultTask : UploadProgress := ⟨"u1", "report.pdf", 0, .uploading⟩

/-- Witness for C6: evaluating the timeout listener on a task at 40%
with an event carrying no `progress` field keeps it `uploading` and
resets progress to 0. -/
theorem timeout_keeps_uploading_witness :
    timeoutResultTask.status = .uploading ∧
    timeoutResultTask.status ≠ .error ∧
    timeoutResultTask.status ≠ .completed ∧
    timeoutResultTask.progress = timeoutProgress (.ok none) :=
  timeout_keeps_uploading timeoutExampleUploads "u1" (.ok none)
    timeoutResultTask (by decide) (by decide)

/-- Concrete state for the C7 counterexample: one upload at 40% in
status `uploading`, its SSE handle open. -/
def sseErrorExampleState : SseUploadState :=
  ⟨[⟨"u1", "report.pdf", 40, .uploading⟩], ["u1"]⟩

/-- Counterexample to C7 as stated: in the
src/src/context/FileManagerContext.tsx variant of `addUpload`, the
`onerror` handler of the upload SSE stream sets the task's status to
`"error"` (and progress to 0) even though the last authoritative server
message had left it `uploading` at 40%. -/
theorem sse_error_sets_error_legacy :
    ((sseErrorExampleState.uploads.find? (fun u => u.id = "u1")).map
        (·.status) = some .uploading) ∧
    (((onUploadErrorLegacy sseErrorExampleState "u1").uploads.find?
        (fun u => u.id = "u1")).map (·.status) = some .error) ∧
    (((onUploadErrorLegacy sseErrorExampleState "u1").uploads.find?
        (fun u => u.id = "u1")).map (·.progress) = some 0) := by
  decide

/-- Claim C7 (amended): in the part_011 `FileManagerProvider`, the SSE
`onerror` handler of `addUpload` closes and removes the local
EventSource handle for the upload but leaves the uploads list — hence
every task's status and progress — exactly as the last server message
set it. -/
theorem onUploadError_closes_without_failure (s : SseUploadState)
    (uploadId : String) :
    (onUploadError s uploadId).uploads = s.uploads ∧
    uploadId ∉ (onUploadError s uploadId).handles ∧
    ∀ h ∈ s.handles, h ≠ uploadId →
      h ∈ (onUploadError s uploadId).handles := by
  refine ⟨rfl, ?_, ?_⟩
  · simp [onUploadError]
  · intro h hmem hne
    simp [onUploadError, hmem, hne]

/-- Witness for the amended C7: on the concrete example state the
part_011 `onerror` keeps the task untouched and closes the handle. -/
theorem onUploadError_closes_without_failure_witness :
    (onUploadError sseErrorExampleState "u1").uploads =
      sseErrorExampleState.uploads ∧
    "u1" ∉ (onUploadError sseErrorExampleState "u1").handles ∧
    ∀ h ∈ sseErrorExampleState.handles, h ≠ "u1" →
      h ∈ (onUploadError sseErrorExampleState "u1").handles :=
  onUploadError_closes_without_failure sseErrorExampleState "u1"

/-- One `ADJUST_FOLDER_COUNTS` application keeps every displayed count
nonnegative. -/
theorem adjustFolderCounts_nonneg (s : CountsState) (folderId : String)
    (dF dFi : Option Int) (h : CountsNonNeg s) :
    CountsNonNeg (adjustFolderCounts s folderId dF dFi) := by
  obtain ⟨hroot, hchild⟩ := h
  constructor
  · intro f hf
    simp only [adjustFolderCounts, List.mem_map] at hf
    obtain ⟨g, hg, hfg⟩ := hf
    by_cases hid : g.id = folderId
    · simp only [hid, if_pos rfl] at hfg
      subst hfg
      constructor <;> simp [le_max_left]
    · simp only [hid, if_neg hid] at hfg
      subst hfg
      exact hroot g hg
  · intro entry hentry it hit
    simp only [adjustFolderCounts, List.mem_map] at hentry
    obtain ⟨e, he, hee⟩ := hentry
    subst hee
    simp only [List.mem_map] at hit
    obtain ⟨j, hj, hjj⟩ := hit
    by_cases hid : j.id = folderId ∧ j.ftype = .folder
    · simp only [if_pos hid] at hjj
      subst hjj
      constructor <;> simp [le_max_left]
    · simp only [if_neg hid] at hjj
      subst hjj
      exact hchild e he j hj

/-- Claim C3: starting from any state whose displayed child-count badges
are all nonnegative, any sequence of `ADJUST_FOLDER_COUNTS` applications
(any folder ids, any positive or negative deltas, in any order) leaves
every badge in the root-folders-with-counts list and in every
grid-children cache entry nonnegative. -/
theorem adjustMany_nonneg (s : CountsState)
    (ops : List (String × Option Int × Option Int))
    (h : CountsNonNeg s) : CountsNonNeg (adjustMany s ops) := by
  induction ops generalizing s with
  | nil => exact h
  | cons op rest ih =>
    exact ih (adjustFolderCounts s op.1 op.2.1 op.2.2)
      (adjustFolderCounts_nonneg s op.1 op.2.1 op.2.2 h)

/-- Concrete state for the C3 witness: two root folders with small
counts and one grid-children entry. -/
def countsExampleState : CountsState :=
  { rootFoldersWithCounts :=
      [⟨"a", some 2, some 1⟩, ⟨"b", none, some 0⟩]
    mainChildrenByParent :=
      [("a", [⟨"c", .folder, some 1, some 0⟩, ⟨"d", .file, none, none⟩])] }

/-- Concrete delta sequence for the C3 witness, driving counts far
negative if they were not clamped. -/
def countsExampleOps : List (String × Option Int × Option Int) :=
  [("a", some (-5), some (-7)), ("c", some (-100), none),
   ("a", some 1, some (-3)), ("b", none, some (-2))]

/-- Witness for C3: applying the concrete delta sequence to the concrete
state keeps every displayed badge nonnegative. -/
theorem adjustMany_nonneg_witness :
    CountsNonNeg (adjustMany countsExampleState countsExampleOps) :=
  adjustMany_nonneg countsExampleState countsExampleOps
    (by unfold CountsNonNeg; decide)

/-! ## `sortFiles` (part_007 lines 191-219)

`sortFiles` copies the list and sorts it with a comparator that returns
-1/1 immediately on folder-vs-file pairs and otherwise compares by the
selected key, negating the comparison for descending order.  The entry
is embedded with `modifiedAtMs` standing for
`new Date(modifiedAt).getTime()` and `sizeBytes` for the already-parsed
`parseSize(size)` (absent when `a.size` is falsy), and `localeCompare`
is modelled by the lexicographic string order (locale-independent);
none of these affect the folder-before-file placement.  JS
`Array.prototype.sort` with a consistent comparator produces a list
sorted by that comparator; it is embedded as `List.mergeSort`. -/

/-- Entry as consumed by `sortFiles`. -/
structure SortEntry where
  name : String
  ftype : FType
  modifiedAtMs : Int
  sizeBytes : Option Int
deriving DecidableEq, Repr

/-- The `sortBy` union: `"name" | "date" | "size"`. -/
inductive SortBy where
  | name
  | date
  | size
deriving DecidableEq, Repr

/-- The `order` union: `"asc" | "desc"`. -/
inductive SortOrder where
  | asc
  | desc
deriving DecidableEq, Repr

/-- Integer-valued model of `a.localeCompare(b)`. -/
def strCmp (a b : String) : Int :=
  if a < b then -1 else if b < a then 1 else 0

/-- The `switch (sortBy)` block computing `comparison` in `sortFiles`:
by name, by `getTime()` difference, or by size (falling back to the
name comparison when both entries are folders, and reading a missing
size as 0). -/
def comparisonVal (sortBy : SortBy) (a b : SortEntry) : Int :=
  match sortBy with
  | .name => strCmp a.name b.name
  | .date => a.modifiedAtMs - b.modifiedAtMs
  | .size =>
    if a.ftype = .folder ∧ b.ftype = .folder then strCmp a.name b.name
    else a.sizeBytes.getD 0 - b.sizeBytes.getD 0

/-- The full comparator of `sortFiles`: folders always first, then the
keyed comparison, negated for `"desc"`. -/
def fileCmp (sortBy : SortBy) (order : SortOrder) (a b : SortEntry) : Int :=
  if a.ftype = .folder ∧ b.ftype = .file then -1
  else if a.ftype = .file ∧ b.ftype = .folder then 1
  else if order = .asc then comparisonVal sortBy a b
  else -(comparisonVal sortBy a b)

/-- `sortFiles` itself: a copy of the input sorted by the comparator. -/
def sortFiles (files : List SortEntry) (sortBy : SortBy)
    (order : SortOrder) : List SortEntry :=
  files.mergeSort (fun a b => fileCmp sortBy order a b ≤ 0)

theorem strCmp_nonpos_iff (a b : String) : strCmp a b ≤ 0 ↔ a ≤ b := by
  unfold strCmp
  rcases lt_trichotomy a b with h | h | h
  · simp [h, le_of_lt h, not_lt_of_lt h]
  · simp [h]
  · simp [h, not_lt_of_lt h, not_le_of_lt h, lt_asymm h]

theorem strCmp_nonneg_iff (a b : String) : 0 ≤ strCmp a b ↔ b ≤ a := by
  unfold strCmp
  rcases lt_trichotomy a b with h | h | h
  · simp [h, not_le_of_lt h, lt_asymm h]
  · simp [h]
  · simp [h, le_of_lt h, not_lt_of_lt h]

theorem strCmp_neg (a b : String) : strCmp b a = -strCmp a b := by
  unfold strCmp
  rcases lt_trichotomy a b with h | h | h
  · simp [h, not_lt_of_lt h, lt_asymm h]
  · simp [h, le_of_eq h, le_of_eq h.symm, lt_irrefl]
  · simp [h, not_lt_of_lt h, lt_asymm h]

theorem comparisonVal_neg (s : SortBy) (a b : SortEntry) :
    comparisonVal s b a = -comparisonVal s a b := by
  cases s with
  | name => exact strCmp_neg a.name b.name
  | date => simp only [comparisonVal]; omega
  | size =>
    simp only [comparisonVal]
    by_cases hf : a.ftype = FType.folder ∧ b.ftype = FType.folder
    · rw [if_pos hf, if_pos ⟨hf.2, hf.1⟩]
      exact strCmp_neg a.name b.name
    · rw [if_neg hf, if_neg (fun hh => hf ⟨hh.2, hh.1⟩)]
      omega

theorem comparisonVal_trans_nonpos (s : SortBy) (a b c : SortEntry)
    (hab : a.ftype = b.ftype) (hbc : b.ftype = c.ftype)
    (h1 : comparisonVal s a b ≤ 0) (h2 : comparisonVal s b c ≤ 0) :
    comparisonVal s a c ≤ 0 := by
  cases s with
  | name =>
    simp only [comparisonVal, strCmp_nonpos_iff] at h1 h2 ⊢
    exact le_trans h1 h2
  | date =>
    simp only [comparisonVal] at h1 h2 ⊢
    omega
  | size =>
    by_cases hf : a.ftype = FType.folder
    · have hb : b.ftype = FType.folder := hab.symm.trans hf
      have hc : c.ftype = FType.folder := hbc.symm.trans hb
      simp only [comparisonVal, if_pos (And.intro hf hb)] at h1
      simp only [comparisonVal, if_pos (And.intro hb hc)] at h2
      simp only [comparisonVal, if_pos (And.intro hf hc)]
      rw [strCmp_nonpos_iff] at h1 h2 ⊢
      exact le_trans h1 h2
    · have hb : ¬ b.ftype = FType.folder := fun h => hf (hab.trans h)
      have hc : ¬ c.ftype = FType.folder := fun h => hb (hbc.trans h)
      simp only [comparisonVal, if_neg (fun hh => hf (And.left hh))] at h1
      simp only [comparisonVal, if_neg (fun hh => hb (And.left hh))] at h2
      simp only [comparisonVal, if_neg (fun hh => hf (And.left hh))]
      omega

theorem comparisonVal_trans_nonneg (s : SortBy) (a b c : SortEntry)
    (hab : a.ftype = b.ftype) (hbc : b.ftype = c.ftype)
    (h1 : 0 ≤ comparisonVal s a b) (h2 : 0 ≤ comparisonVal s b c) :
    0 ≤ comparisonVal s a c := by
  have h1n : comparisonVal s b a ≤ 0 := by rw [comparisonVal_neg]; omega
  have h2n : comparisonVal s c b ≤ 0 := by rw [comparisonVal_neg]; omega
  have := comparisonVal_trans_nonpos s c b a hbc.symm hab.symm h2n h1n
  rw [comparisonVal_neg] at this
  omega

/-- The comparator evaluates to -1 on every folder-file pair. -/
theorem fileCmp_folder_file (s : SortBy) (o : SortOrder) (a b : SortEntry)
    (h1 : a.ftype = .folder) (h2 : b.ftype = .file) :
    fileCmp s o a b = -1 := by
  unfold fileCmp
  rw [if_pos (And.intro h1 h2)]

/-- The comparator evaluates to 1 on every file-folder pair. -/
theorem fileCmp_file_folder (s : SortBy) (o : SortOrder) (a b : SortEntry)
    (h1 : a.ftype = .file) (h2 : b.ftype = .folder) :
    fileCmp s o a b = 1 := by
  unfold fileCmp
  rw [if_neg (fun hh => by rw [h1] at hh; exact FType.noConfusion hh.1),
    if_pos (And.intro h1 h2)]

/-- On same-type pairs the comparator is the keyed comparison, negated
for descending order. -/
theorem fileCmp_same (s : SortBy) (o : SortOrder) (a b : SortEntry)
    (h : a.ftype = b.ftype) :
    fileCmp s o a b =
      if o = .asc then comparisonVal s a b else -(comparisonVal s a b) := by
  unfold fileCmp
  rw [if_neg (fun hh => by rw [h, hh.2] at hh; exact FType.noConfusion hh.1),
    if_neg (fun hh => by rw [h, hh.2] at hh; exact FType.noConfusion hh.1)]

/-- Swapping the arguments negates the comparator. -/
theorem fileCmp_neg (s : SortBy) (o : SortOrder) (a b : SortEntry) :
    fileCmp s o b a = -(fileCmp s o a b) := by
  cases ha : a.ftype <;> cases hb : b.ftype
  · rw [fileCmp_same s o a b (ha.trans hb.symm),
      fileCmp_same s o b a (hb.trans ha.symm), comparisonVal_neg]
    cases o <;> simp
  · rw [fileCmp_file_folder s o a b ha hb, fileCmp_folder_file s o b a hb ha]
  · rw [fileCmp_folder_file s o a b ha hb, fileCmp_file_folder s o b a hb ha]
    omega
  · rw [fileCmp_same s o a b (ha.trans hb.symm),
      fileCmp_same s o b a (hb.trans ha.symm), comparisonVal_neg]
    cases o <;> simp

/-- Totality of the `sortFiles` comparator (needed for sortedness of
the modelled JS sort). -/
theorem fileCmp_total (s : SortBy) (o : SortOrder) (a b : SortEntry) :
    fileCmp s o a b ≤ 0 ∨ fileCmp s o b a ≤ 0 := by
  rw [fileCmp_neg]
  omega

theorem comparisonVal_same_trans (s : SortBy) (o : SortOrder)
    (a b c : SortEntry) (hab : a.ftype = b.ftype) (hbc : b.ftype = c.ftype)
    (h1 : fileCmp s o a b ≤ 0) (h2 : fileCmp s o b c ≤ 0) :
    fileCmp s o a c ≤ 0 := by
  rw [fileCmp_same s o a b hab] at h1
  rw [fileCmp_same s o b c hbc] at h2
  rw [fileCmp_same s o a c (hab.trans hbc)]
  cases o with
  | asc =>
    simp only [if_pos rfl] at h1 h2 ⊢
    exact comparisonVal_trans_nonpos s a b c hab hbc h1 h2
  | desc =>
    simp only [reduceCtorEq, if_neg, reduceIte] at h1 h2 ⊢
    have := comparisonVal_trans_nonneg s a b c hab hbc (by omega) (by omega)
    omega

/-- Transitivity of the `sortFiles` comparator. -/
theorem fileCmp_trans (s : SortBy) (o : SortOrder) (a b c : SortEntry)
    (h1 : fileCmp s o a b ≤ 0) (h2 : fileCmp s o b c ≤ 0) :
    fileCmp s o a c ≤ 0 := by
  cases ha : a.ftype <;> cases hb : b.ftype <;> cases hc : c.ftype
  · exact comparisonVal_same_trans s o a b c (ha.trans hb.symm)
      (hb.trans hc.symm) h1 h2
  · rw [fileCmp_file_folder s o b c hb hc] at h2; omega
  · rw [fileCmp_file_folder s o a b ha hb] at h1; omega
  · rw [fileCmp_file_folder s o a b ha hb] at h1; omega
  · rw [fileCmp_folder_file s o a c ha hc]; omega
  · rw [fileCmp_file_folder s o b c hb hc] at h2; omega
  · rw [fileCmp_folder_file s o a c ha hc]; omega
  · exact comparisonVal_same_trans s o a b c (ha.trans hb.symm)
      (hb.trans hc.symm) h1 h2

/-- Claim C9: for every input list and every sort key and order, the
list returned by `sortFiles` places every folder-typed entry before
every file-typed entry; in particular no file ever precedes a folder,
whichever sort order is chosen. -/
theorem sortFiles_folders_first (files : List SortEntry) (s : SortBy)
    (o : SortOrder) :
    (sortFiles files s o).Pairwise
      (fun a b => ¬(a.ftype = .file ∧ b.ftype = .folder)) := by
  have hs : (sortFiles files s o).Pairwise
      (fun a b => (fileCmp s o a b ≤ 0 : Bool) = true) := by
    apply List.sorted_mergeSort
    · intro a b c h1 h2
      simp only [decide_eq_true_eq] at *
      exact fileCmp_trans s o a b c h1 h2
    · intro a b
      have := fileCmp_total s o a b
      simp only [Bool.or_eq_true, decide_eq_true_eq]
      exact this
  refine hs.imp ?_
  intro a b hab
  simp only [decide_eq_true_eq] at hab
  rintro ⟨haf, hbf⟩
  rw [fileCmp, if_neg (by simp [haf]), if_pos ⟨haf, hbf⟩] at hab
  omega

/-! ## `findPathIds` (part_011 lines 1649-1665)

The folder tree held in `state.folderTree` is a forest of `FileItem`
nodes; only the fields `id`, `name`, `parentId` and `children` matter to
the tree traversals (`children` absent or empty both diverge into the
same no-children behaviour, so `children?` is embedded as a plain
list). -/

/-- A node of `state.folderTree`. -/
inductive FTree where
  | mk (id : String) (name : String) (parentId : Option String)
      (children : List FTree)

/-- Access the `id` field. -/
def FTree.id : FTree → String
  | .mk i _ _ _ => i

/-- Access the `name` field. -/
def FTree.name : FTree → String
  | .mk _ n _ _ => n

/-- Access the `parentId` field. -/
def FTree.parentId : FTree → Option String
  | .mk _ _ p _ => p

/-- Access the `children` field. -/
def FTree.children : FTree → List FTree
  | .mk _ _ _ c => c

/-- The inner `dfs` of `findPathIds`: walks the forest in order,
extending the accumulated id path by the current node, returning the
extended path on a match, else searching the node's children and then
the remaining siblings. -/
def dfs (targetId : String) : List FTree → List String → Option (List String)
  | [], _ => none
  | FTree.mk i _ _ cs :: rest, acc =>
    let next := acc ++ [i]
    if i = targetId then some next
    else
      match dfs targetId cs next with
      | some found => some found
      | none => dfs targetId rest acc

/-- `findPathIds`: DFS over the loaded folder tree starting from an
empty path. -/
def findPathIds (tree : List FTree) (targetId : String) :
    Option (List String) :=
  dfs targetId tree []

/-- Whether an id occurs anywhere in a loaded forest. -/
def occursIn (targetId : String) : List FTree → Bool
  | [] => false
  | FTree.mk i _ _ cs :: rest =>
    (i == targetId) || occursIn targetId cs || occursIn targetId rest

/-- When the target occurs nowhere in the forest, the DFS returns
`none` for every accumulator. -/
theorem dfs_none (targetId : String) : ∀ (nodes : List FTree),
    occursIn targetId nodes = false →
    ∀ acc, dfs targetId nodes acc = none
  | [], _, _ => by simp [dfs]
  | FTree.mk i nm p cs :: rest, h, acc => by
    simp only [occursIn, Bool.or_eq_false_iff, beq_eq_false_iff_ne] at h
    obtain ⟨⟨hi, hcs⟩, hrest⟩ := h
    simp only [dfs]
    rw [if_neg hi, dfs_none targetId cs hcs (acc ++ [i]),
      dfs_none targetId rest hrest acc]

/-- When the target occurs in the forest, the DFS returns the
accumulator extended by a non-empty suffix that starts at one of the
forest's top-level nodes and ends at the target. -/
theorem dfs_found (targetId : String) : ∀ (nodes : List FTree),
    occursIn targetId nodes = true →
    ∀ acc, ∃ suffix, dfs targetId nodes acc = some (acc ++ suffix) ∧
      suffix ≠ [] ∧
      (∃ n ∈ nodes, suffix.head? = some n.id) ∧
      suffix.getLast? = some targetId
  | [], h, _ => by simp [occursIn] at h
  | FTree.mk i nm p cs :: rest, h, acc => by
    by_cases hi : i = targetId
    · refine ⟨[i], ?_, by simp, ⟨FTree.mk i nm p cs, by simp, by simp [FTree.id]⟩,
        by simp [hi]⟩
      simp [dfs, hi]
    · simp only [occursIn, Bool.or_eq_true, beq_iff_eq] at h
      rcases h with (h | hcs) | hrest
      · exact absurd h hi
      · obtain ⟨sfx, heq, hne, _, hlast⟩ :=
          dfs_found targetId cs hcs (acc ++ [i])
        refine ⟨i :: sfx, ?_, by simp, ⟨FTree.mk i nm p cs, by simp,
          by simp [FTree.id]⟩, ?_⟩
        · simp only [dfs]
          rw [if_neg hi, heq]
          simp
        · rw [List.getLast?_cons, hlast]
          cases sfx with
          | nil => exact absurd rfl hne
          | cons x xs => simp [List.getLast?_cons]
      · by_cases hcs : occursIn targetId cs = true
        · obtain ⟨sfx, hex, hne, _, hlast⟩ :=
            dfs_found targetId cs hcs (acc ++ [i])
          refine ⟨i :: sfx, ?_, by simp, ⟨FTree.mk i nm p cs, by simp,
            by simp [FTree.id]⟩, ?_⟩
          · simp only [dfs]
            rw [if_neg hi, hex]
            simp
          · rw [List.getLast?_cons, hlast]
            cases sfx with
            | nil => exact absurd rfl hne
            | cons x xs => simp [List.getLast?_cons]
        · obtain ⟨sfx, hex, hne, ⟨n, hn, hhd⟩, hlast⟩ :=
            dfs_found targetId rest hrest acc
          refine ⟨sfx, ?_, hne, ⟨n, List.mem_cons_of_mem _ hn, hhd⟩, hlast⟩
          simp only [dfs]
          rw [if_neg hi,
            dfs_none targetId cs (Bool.eq_false_iff.mpr hcs) (acc ++ [i])]
          exact hex

/-- Claim C4: for every folder id present in the currently loaded folder
tree (whose top-level entries are root-level folders with a null
parent), `findPathIds` returns a non-empty id path ending at the
queried id and starting at a top-level (null-parent) folder of the
tree; for an id not present in the loaded tree it returns `none`. -/
theorem findPathIds_spec (tree : List FTree) (targetId : String)
    (htop : ∀ n ∈ tree, n.parentId = none) :
    (occursIn targetId tree = true →
      ∃ path, findPathIds tree targetId = some path ∧ path ≠ [] ∧
        path.getLast? = some targetId ∧
        ∃ n ∈ tree, path.head? = some n.id ∧ n.parentId = none) ∧
    (occursIn targetId tree = false →
      findPathIds tree targetId = none) := by
  constructor
  · intro hocc
    obtain ⟨sfx, heq, hne, ⟨n, hn, hhd⟩, hlast⟩ := dfs_found targetId tree hocc []
    exact ⟨sfx, by simpa [findPathIds] using heq, hne, hlast,
      n, hn, hhd, htop n hn⟩
  · intro hocc
    exact dfs_none targetId tree hocc []

/-- Concrete loaded tree for the C4 witness: root folder `a1`
containing subfolder `b1`. -/
def exampleTree : List FTree :=
  [FTree.mk "a1" "A" none [FTree.mk "b1" "B" (some "a1") []]]

/-- Witness for C4: on the concrete tree, querying the nested folder
`b1` and the absent id `zz` exercises both directions of the spec. -/
theorem findPathIds_spec_witness :
    ((occursIn "b1" exampleTree = true →
      ∃ path, findPathIds exampleTree "b1" = some path ∧ path ≠ [] ∧
        path.getLast? = some "b1" ∧
        ∃ n ∈ exampleTree, path.head? = some n.id ∧ n.parentId = none) ∧
    (occursIn "b1" exampleTree = false →
      findPathIds exampleTree "b1" = none)) ∧
    ((occursIn "zz" exampleTree = true →
      ∃ path, findPathIds exampleTree "zz" = some path ∧ path ≠ [] ∧
        path.getLast? = some "zz" ∧
        ∃ n ∈ exampleTree, path.head? = some n.id ∧ n.parentId = none) ∧
    (occursIn "zz" exampleTree = false →
      findPathIds exampleTree "zz" = none)) :=
  ⟨findPathIds_spec exampleTree "b1"
      (by intro n hn; simp [exampleTree] at hn; simp [hn, FTree.parentId]),
    findPathIds_spec exampleTree "zz"
      (by intro n hn; simp [exampleTree] at hn; simp [hn, FTree.parentId])⟩

/-! ## `isDescendantOf` and the collapse helpers
(part_011 lines 1699-1714 and 1783-1839) -/

/-- The `while (cursor && guard < 1000)` loop of `isDescendantOf`:
walks `parentId` links up from the cursor for at most `fuel` steps
(source bound: 1000), returning true when a link equals the queried
ancestor, false on missing metadata, a null parent, or fuel
exhaustion. -/
def descWalk (meta : List (String × FolderMeta)) (ancestorId : String) :
    Nat → String → Bool
  | 0, _ => false
  | fuel + 1, cursor =>
    match metaLookup meta cursor with
    | none => false
    | some m =>
      if m.parentId = some ancestorId then true
      else
        match m.parentId with
        | none => false
        | some p => descWalk meta ancestorId fuel p

/-- `isDescendantOf` (part_011 lines 1699-1714): a candidate is a
descendant of an ancestor if equal to it, or if the bounded upward walk
over `folderMetaById` reaches the ancestor. -/
def isDescendantOf (meta : List (String × FolderMeta))
    (candidateId ancestorId : String) : Bool :=
  candidateId == ancestorId || descWalk meta ancestorId 1000 candidateId

/-- The slice of `FileManagerState` touched by the collapse helpers. -/
structure CollapseState where
  expandedFolders : List String
  mainExpandedIds : List String
  selectedMainFolderId : Option String
  currentPath : List String
  folderMetaById : List (String × FolderMeta)

/-- The `TOGGLE_FOLDER_EXPANSION` / `TOGGLE_MAIN_EXPAND` reducer
branches: a copy of the set with the id deleted when present, added
(at the end, matching JS Set insertion order) otherwise. -/
def toggleSet (s : List String) (id : String) : List String :=
  if id ∈ s then s.erase id else s ++ [id]

/-- `(state.folderMetaById[folderId]?.parentId) ?? null`: the collapsed
folder's own parent, null when the folder has no metadata or is
top-level. -/
def collapseParent (meta : List (String × FolderMeta))
    (folderId : String) : Option String :=
  (metaLookup meta folderId).bind FolderMeta.parentId

/-- `collapseFolderInTree` (part_011 lines 1783-1810): toggle off every
expanded node that is the folder or one of its descendants, and when
the current selection lies in the collapsed subtree, move selection and
breadcrumb to the collapsed folder's parent. -/
def collapseFolderInTree (st : CollapseState) (folderId : String) :
    CollapseState :=
  let toClose := st.expandedFolders.filter
    (fun id => isDescendantOf st.folderMetaById id folderId)
  let st1 := { st with expandedFolders := toClose.foldl toggleSet st.expandedFolders }
  match st.selectedMainFolderId with
  | some sel =>
    if isDescendantOf st.folderMetaById sel folderId then
      let parentId := collapseParent st.folderMetaById folderId
      { st1 with
        selectedMainFolderId := parentId
        currentPath := getPathSegmentsFor st.folderMetaById parentId }
    else st1
  | none => st1

/-- `collapseFolderInMain` (part_011 lines 1812-1839): identical to
`collapseFolderInTree` but acting on `mainExpandedIds`. -/
def collapseFolderInMain (st : CollapseState) (folderId : String) :
    CollapseState :=
  let toClose := st.mainExpandedIds.filter
    (fun id => isDescendantOf st.folderMetaById id folderId)
  let st1 := { st with mainExpandedIds := toClose.foldl toggleSet st.mainExpandedIds }
  match st.selectedMainFolderId with
  | some sel =>
    if isDescendantOf st.folderMetaById sel folderId then
      let parentId := collapseParent st.folderMetaById folderId
      { st1 with
        selectedMainFolderId := parentId
        currentPath := getPathSegmentsFor st.folderMetaById parentId }
    else st1
  | none => st1

/-- Toggling, in sequence, a duplicate-free batch of ids all present in
a duplicate-free set removes exactly that batch. -/
theorem foldl_toggle_removes : ∀ (ids l : List String), l.Nodup →
    ids.Nodup → (∀ i ∈ ids, i ∈ l) →
    ids.foldl toggleSet l = l.filter (fun x => !ids.contains x) := by
  intro ids
  induction ids with
  | nil => intro l _ _ _; simp
  | cons i rest ih =>
    intro l hl hids hmem
    have hi : i ∈ l := hmem i (List.mem_cons_self i rest)
    have hstep : toggleSet l i = l.erase i := by
      simp [toggleSet, hi]
    have hrest : ∀ j ∈ rest, j ∈ l.erase i := by
      intro j hj
      have hji : j ≠ i := by
        intro h
        exact (List.nodup_cons.mp hids).1 (h ▸ hj)
      exact (List.mem_erase_of_ne hji).mpr (hmem j (List.mem_cons_of_mem i hj))
    calc (i :: rest).foldl toggleSet l
        = rest.foldl toggleSet (toggleSet l i) := rfl
      _ = rest.foldl toggleSet (l.erase i) := by rw [hstep]
      _ = (l.erase i).filter (fun x => !rest.contains x) :=
          ih (l.erase i) (hl.erase i) (List.nodup_cons.mp hids).2 hrest
      _ = (l.filter (fun x => x != i)).filter
            (fun x => !rest.contains x) := by
          rw [List.Nodup.erase_eq_filter hl i]
      _ = l.filter (fun x => !(i :: rest).contains x) := by
          rw [List.filter_filter]
          apply List.filter_congr
          intro x _
          by_cases hx : x = i <;> simp [hx]

/-- After the toggles of a collapse, the expansion set equals the
original minus every member the descendant test selects. -/
theorem collapse_filter_eq (l : List String)
    (meta : List (String × FolderMeta)) (folderId : String)
    (hl : l.Nodup) :
    (l.filter (fun id => isDescendantOf meta id folderId)).foldl
        toggleSet l =
      l.filter (fun id => !isDescendantOf meta id folderId) := by
  rw [foldl_toggle_removes (l.filter (fun id => isDescendantOf meta id folderId))
      l hl (hl.filter _) (fun i hi => List.mem_of_mem_filter hi)]
  apply List.filter_congr
  intro x hx
  cases hd : isDescendantOf meta x folderId with
  | true =>
    have hmem : x ∈ l.filter (fun id => isDescendantOf meta id folderId) :=
      List.mem_filter.mpr ⟨hx, hd⟩
    simp [List.contains, List.elem_iff, hmem]
  | false =>
    have hmem : x ∉ l.filter (fun id => isDescendantOf meta id folderId) := by
      intro hmm
      rw [List.mem_filter, hd] at hmm
      exact Bool.false_ne_true hmm.2
    simp [List.contains, List.elem_iff, hmem]

theorem collapseFolderInTree_expanded (st : CollapseState) (fid : String)
    (h : st.expandedFolders.Nodup) :
    (collapseFolderInTree st fid).expandedFolders =
      st.expandedFolders.filter
        (fun id => !isDescendantOf st.folderMetaById id fid) := by
  have hfe := collapse_filter_eq st.expandedFolders st.folderMetaById fid h
  unfold collapseFolderInTree
  cases st.selectedMainFolderId with
  | none => simpa using hfe
  | some sel =>
    by_cases hd : isDescendantOf st.folderMetaById sel fid = true <;>
      simp [hd, hfe]

theorem collapseFolderInMain_expanded (st : CollapseState) (fid : String)
    (h : st.mainExpandedIds.Nodup) :
    (collapseFolderInMain st fid).mainExpandedIds =
      st.mainExpandedIds.filter
        (fun id => !isDescendantOf st.folderMetaById id fid) := by
  have hfe := collapse_filter_eq st.mainExpandedIds st.folderMetaById fid h
  unfold collapseFolderInMain
  cases st.selectedMainFolderId with
  | none => simpa using hfe
  | some sel =>
    by_cases hd : isDescendantOf st.folderMetaById sel fid = true <;>
      simp [hd, hfe]

/-- Claim C5: collapsing a folder (in the tree or in the main grid)
clears the expansion flag of the folder and of every currently expanded
node the bounded parent-chain walk recognises as its descendant — the
new expansion set is exactly the old one with those members removed —
and when the active selection is the collapsed folder or lies inside
its subtree, the selection and the breadcrumb are reassigned to exactly
the collapsed folder's own parent (null, i.e. root, when the collapsed
folder is top-level or unknown to the metadata). -/
theorem collapse_spec (st : CollapseState) (fid : String)
    (hTree : st.expandedFolders.Nodup) (hMain : st.mainExpandedIds.Nodup) :
    ((collapseFolderInTree st fid).expandedFolders =
        st.expandedFolders.filter
          (fun id => !isDescendantOf st.folderMetaById id fid)) ∧
    ((collapseFolderInMain st fid).mainExpandedIds =
        st.mainExpandedIds.filter
          (fun id => !isDescendantOf st.folderMetaById id fid)) ∧
    (∀ id, isDescendantOf st.folderMetaById id fid = true →
        id ∉ (collapseFolderInTree st fid).expandedFolders ∧
        id ∉ (collapseFolderInMain st fid).mainExpandedIds) ∧
    (∀ sel, st.selectedMainFolderId = some sel →
        isDescendantOf st.folderMetaById sel fid = true →
        (collapseFolderInTree st fid).selectedMainFolderId =
            collapseParent st.folderMetaById fid ∧
        (collapseFolderInTree st fid).currentPath =
            getPathSegmentsFor st.folderMetaById
              (collapseParent st.folderMetaById fid) ∧
        (collapseFolderInMain st fid).selectedMainFolderId =
            collapseParent st.folderMetaById fid ∧
        (collapseFolderInMain st fid).currentPath =
            getPathSegmentsFor st.folderMetaById
              (collapseParent st.folderMetaById fid)) := by
  refine ⟨collapseFolderInTree_expanded st fid hTree,
    collapseFolderInMain_expanded st fid hMain, ?_, ?_⟩
  · intro id hid
    constructor
    · rw [collapseFolderInTree_expanded st fid hTree]
      intro hmem
      rw [List.mem_filter, hid] at hmem
      simp at hmem
    · rw [collapseFolderInMain_expanded st fid hMain]
      intro hmem
      rw [List.mem_filter, hid] at hmem
      simp at hmem
  · intro sel hsel hd
    unfold collapseFolderInTree collapseFolderInMain
    rw [hsel]
    simp [hd]

/-- Concrete state for the C5 witness: metadata root `a` containing `b`
containing `c`; all three expanded in both views; selection on `c`. -/
def collapseExampleState : CollapseState :=
  { expandedFolders := ["a", "b", "c"]
    mainExpandedIds := ["b", "c"]
    selectedMainFolderId := some "c"
    currentPath := ["Root", "A", "B", "C"]
    folderMetaById :=
      [("a", ⟨"A", none⟩), ("b", ⟨"B", some "a"⟩), ("c", ⟨"C", some "b"⟩)] }

/-- Witness for C5: collapsing `b` on the concrete state clears `b` and
`c` in both views and moves selection and breadcrumb to `a`. -/
theorem collapse_spec_witness :
    ((collapseFolderInTree collapseExampleState "b").expandedFolders =
        collapseExampleState.expandedFolders.filter
          (fun id =>
            !isDescendantOf collapseExampleState.folderMetaById id "b")) ∧
    ((collapseFolderInMain collapseExampleState "b").mainExpandedIds =
        collapseExampleState.mainExpandedIds.filter
          (fun id =>
            !isDescendantOf collapseExampleState.folderMetaById id "b")) ∧
    (∀ id, isDescendantOf collapseExampleState.folderMetaById id "b" = true →
        id ∉ (collapseFolderInTree collapseExampleState "b").expandedFolders ∧
        id ∉ (collapseFolderInMain collapseExampleState "b").mainExpandedIds) ∧
    (∀ sel, collapseExampleState.selectedMainFolderId = some sel →
        isDescendantOf collapseExampleState.folderMetaById sel "b" = true →
        (collapseFolderInTree collapseExampleState "b").selectedMainFolderId =
            collapseParent collapseExampleState.folderMetaById "b" ∧
        (collapseFolderInTree collapseExampleState "b").currentPath =
            getPathSegmentsFor collapseExampleState.folderMetaById
              (collapseParent collapseExampleState.folderMetaById "b") ∧
        (collapseFolderInMain collapseExampleState "b").selectedMainFolderId =
            collapseParent collapseExampleState.folderMetaById "b" ∧
        (collapseFolderInMain collapseExampleState "b").currentPath =
            getPathSegmentsFor collapseExampleState.folderMetaById
              (collapseParent collapseExampleState.folderMetaById "b")) :=
  collapse_spec collapseExampleState "b" (by decide) (by decide)

/-! ## `scheduleRevalidate` (part_011 lines 1624-1647)

`revalidateTimersRef` is a `Map<string, number>` from revalidation key
(`parentId ?? "__root__"`) to the timer handle of the pending debounced
revalidation.  A call looks up the existing handle, clears it via
`window.clearTimeout`, schedules a fresh timer, and stores the new
handle under the key.

The scheduled callback is `async`: when the timer expires it leaves the
environment's pending set and the callback starts, but the
`revalidateTimersRef.current.delete(key)` in its `finally` only runs
after the awaited refetches resolve.  The model therefore separates a
timer's life into two events — `expireTimer` (the timer leaves the
pending set, the callback begins) and `finalizeTimer` (the callback's
`finally` deletes its key from the map) — with the callback recorded in
`running` in between.  The environment's pending timers are embedded as
`live` (handle, key) pairs; `window.setTimeout` hands out fresh
handles, embedded as an increasing counter. -/

/-- `Map.set`: replace the value of the first (only) entry for the key
when one exists, keeping its position, else append the new entry. -/
def assocSet : List (String × Nat) → String → Nat → List (String × Nat)
  | [], k, v => [(k, v)]
  | e :: rest, k, v =>
    if e.1 = k then (k, v) :: rest else e :: assocSet rest k v

/-- `Map.get`: the value of the first (only) entry for the key. -/
def timersLookup (m : List (String × Nat)) (k : String) : Option Nat :=
  (m.find? (fun e => e.1 == k)).map (·.2)

/-- The timer bookkeeping state around `revalidateTimersRef`:
the map, the environment's pending timers, the expired callbacks whose
`finally` has not yet run, and the handle counter. -/
structure TimerState where
  timers : List (String × Nat)
  live : List (Nat × String)
  running : List (Nat × String)
  nextHandle : Nat

/-- `scheduleRevalidate` (part_011 lines 1624-1647): clear the timer
whose handle is recorded for the key (a no-op on the pending set when
that timer has already expired), schedule a fresh one, and record its
handle under the key. -/
def scheduleRevalidate (st : TimerState) (parentId : Option String) :
    TimerState :=
  let key := parentId.getD "__root__"
  let live1 :=
    match timersLookup st.timers key with
    | some h => st.live.filter (fun t => t.1 ≠ h)
    | none => st.live
  let timer := st.nextHandle
  { timers := assocSet st.timers key timer
    live := live1 ++ [(timer, key)]
    running := st.running
    nextHandle := st.nextHandle + 1 }

/-- A pending timer expires: it leaves the environment's pending set
and its callback (which captured `key`) starts running. -/
def expireTimer (st : TimerState) (h : Nat) (key : String) : TimerState :=
  { st with
    live := st.live.filter (fun t => t.1 ≠ h)
    running := st.running ++ [(h, key)] }

/-- The callback's `finally`, reached after the awaited refetches:
`revalidateTimersRef.current.delete(key)`, and the callback ends. -/
def finalizeTimer (st : TimerState) (h : Nat) (key : String) :
    TimerState :=
  { st with
    timers := st.timers.filter (fun e => e.1 ≠ key)
    running := st.running.filter (fun t => t.1 ≠ h) }

/-- The primitive events that touch the timer state: a
`revalidateQuietly` call, a pending timer expiring, and an expired
callback reaching its `finally` (expiring an unknown timer or
finalizing an unknown callback is a no-op). -/
inductive TimerEvent where
  | schedule (parentId : Option String)
  | expire (h : Nat) (key : String)
  | finalize (h : Nat) (key : String)

/-- One primitive step of the timer state machine. -/
def timerEventStep (st : TimerState) : TimerEvent → TimerState
  | .schedule pid => scheduleRevalidate st pid
  | .expire h key => if (h, key) ∈ st.live then expireTimer st h key else st
  | .finalize h key =>
    if (h, key) ∈ st.running then finalizeTimer st h key else st

/-- High-level ops for histories in which every callback completes —
expiry immediately followed by its `finally` — before the next event:
a `revalidateQuietly` call, or such an atomic timer completion.  The
completion is interpreted by the two primitive steps in sequence. -/
inductive TimerOp where
  | schedule (parentId : Option String)
  | fire (h : Nat) (key : String)

/-- One step over atomic-completion histories. -/
def timerStep (st : TimerState) : TimerOp → TimerState
  | .schedule pid => timerEventStep st (.schedule pid)
  | .fire h key =>
    timerEventStep (timerEventStep st (.expire h key)) (.finalize h key)

/-- Invariant of the timer bookkeeping between completed callbacks:
pending timers have pairwise distinct keys (the claimed property),
every pending handle was issued by the counter, every pending timer's
handle is the one recorded for its key in `revalidateTimersRef`, and no
callback is mid-flight. -/
def TimerInv (st : TimerState) : Prop :=
  (st.live.map Prod.snd).Nodup ∧
  (∀ t ∈ st.live, t.1 < st.nextHandle) ∧
  (∀ t ∈ st.live, timersLookup st.timers t.2 = some t.1) ∧
  st.running = []

theorem timersLookup_assocSet_self (m : List (String × Nat)) (k : String)
    (v : Nat) : timersLookup (assocSet m k v) k = some v := by
  induction m with
  | nil => simp [assocSet, timersLookup]
  | cons e rest ih =>
    by_cases he : e.1 = k
    · simp [assocSet, he, timersLookup]
    · rw [assocSet, if_neg he]
      unfold timersLookup
      rw [List.find?_cons_of_neg _ (by simpa using he)]
      exact ih

theorem timersLookup_assocSet_ne (m : List (String × Nat)) (k k2 : String)
    (v : Nat) (hne : k2 ≠ k) :
    timersLookup (assocSet m k v) k2 = timersLookup m k2 := by
  induction m with
  | nil =>
    unfold assocSet timersLookup
    rw [List.find?_cons_of_neg _ (by simpa using fun h => hne h.symm)]
  | cons e rest ih =>
    by_cases he : e.1 = k
    · rw [assocSet, if_pos he]
      unfold timersLookup
      rw [List.find?_cons_of_neg _ (by simpa using fun h => hne h.symm),
        List.find?_cons_of_neg _ (by simpa using fun h => hne (he ▸ h).symm)]
    · rw [assocSet, if_neg he]
      by_cases hee : e.1 = k2
      · unfold timersLookup
        rw [List.find?_cons_of_pos _ (by simpa using hee),
          List.find?_cons_of_pos _ (by simpa using hee)]
      · unfold timersLookup
        rw [List.find?_cons_of_neg _ (by simpa using hee),
          List.find?_cons_of_neg _ (by simpa using hee)]
        exact ih

theorem timersLookup_filter_ne (m : List (String × Nat)) (key k2 : String)
    (hne : k2 ≠ key) :
    timersLookup (m.filter (fun e => e.1 ≠ key)) k2 = timersLookup m k2 := by
  induction m with
  | nil => simp [timersLookup]
  | cons e rest ih =>
    by_cases he : e.1 = key
    · rw [List.filter_cons_of_neg (by simpa using he)]
      unfold timersLookup
      rw [List.find?_cons_of_neg _ (by simpa using fun h => hne (he ▸ h).symm)]
      exact ih
    · rw [List.filter_cons_of_pos (by simpa using he)]
      by_cases hee : e.1 = k2
      · unfold timersLookup
        rw [List.find?_cons_of_pos _ (by simpa using hee),
          List.find?_cons_of_pos _ (by simpa using hee)]
      · unfold timersLookup
        rw [List.find?_cons_of_neg _ (by simpa using hee),
          List.find?_cons_of_neg _ (by simpa using hee)]
        exact ih

/-- `scheduleRevalidate` preserves the timer invariant, and afterwards
the only pending timer for the scheduled key is the freshly created
one. -/
theorem scheduleRevalidate_inv (st : TimerState) (pid : Option String)
    (h : TimerInv st) :
    TimerInv (scheduleRevalidate st pid) ∧
    ∀ t ∈ (scheduleRevalidate st pid).live,
      t.2 = pid.getD "__root__" → t.1 = st.nextHandle := by
  obtain ⟨hkeys, hlt, hreg, hrun⟩ := h
  have hfields : ∃ live1 : List (Nat × String),
      (scheduleRevalidate st pid).live =
        live1 ++ [(st.nextHandle, pid.getD "__root__")] ∧
      (scheduleRevalidate st pid).timers =
        assocSet st.timers (pid.getD "__root__") st.nextHandle ∧
      (scheduleRevalidate st pid).nextHandle = st.nextHandle + 1 ∧
      List.Sublist live1 st.live ∧
      (∀ t ∈ live1, t.2 ≠ pid.getD "__root__") := by
    cases hex : timersLookup st.timers (pid.getD "__root__") with
    | some hdl =>
      refine ⟨st.live.filter (fun t => t.1 ≠ hdl),
        by simp [scheduleRevalidate, hex], by simp [scheduleRevalidate],
        by simp [scheduleRevalidate], List.filter_sublist _, ?_⟩
      intro t ht hteq
      have hmem := List.mem_of_mem_filter ht
      have hr := hreg t hmem
      rw [hteq, hex] at hr
      have h1 : hdl = t.1 := by injection hr
      have := List.of_mem_filter ht
      simp [← h1] at this
    | none =>
      refine ⟨st.live, by simp [scheduleRevalidate, hex],
        by simp [scheduleRevalidate], by simp [scheduleRevalidate],
        List.Sublist.refl _, ?_⟩
      intro t ht hteq
      have hr := hreg t ht
      rw [hteq, hex] at hr
      exact Option.noConfusion hr
  obtain ⟨live1, hlive, htimers, hnext, hsub, hnokey⟩ := hfields
  have hmem1 : ∀ t ∈ live1, t ∈ st.live := fun t ht => hsub.mem ht
  constructor
  · refine ⟨?_, ?_, ?_, by simp [scheduleRevalidate, hrun]⟩
    · rw [hlive, List.map_append]
      apply List.Nodup.append
      · exact List.Nodup.sublist (hsub.map Prod.snd) hkeys
      · simp
      · intro k2 hk2 hk2'
        simp only [List.map_cons, List.map_nil, List.mem_singleton] at hk2'
        subst hk2'
        rw [List.mem_map] at hk2
        obtain ⟨t, ht, hteq⟩ := hk2
        exact hnokey t ht hteq
    · intro t ht
      rw [hlive, List.mem_append] at ht
      rw [hnext]
      rcases ht with ht | ht
      · have := hlt t (hmem1 t ht)
        omega
      · simp only [List.mem_singleton] at ht
        rw [ht]
        simp
    · intro t ht
      rw [hlive, List.mem_append] at ht
      rw [htimers]
      rcases ht with ht | ht
      · rw [timersLookup_assocSet_ne st.timers (pid.getD "__root__") t.2
          st.nextHandle (hnokey t ht)]
        exact hreg t (hmem1 t ht)
      · simp only [List.mem_singleton] at ht
        rw [ht]
        exact timersLookup_assocSet_self st.timers (pid.getD "__root__")
          st.nextHandle
  · intro t ht hteq
    rw [hlive, List.mem_append] at ht
    rcases ht with ht | ht
    · exact absurd hteq (hnokey t ht)
    · simp only [List.mem_singleton] at ht
      rw [ht]

/-- A timer expiring and its callback completing (its `finally`
deleting the key) with no intervening event preserves the timer
invariant. -/
theorem fireAtomic_inv (st : TimerState) (hdl : Nat) (key : String)
    (hmem : (hdl, key) ∈ st.live) (h : TimerInv st) :
    TimerInv (finalizeTimer (expireTimer st hdl key) hdl key) := by
  obtain ⟨hkeys, hlt, hreg, hrun⟩ := h
  have hlive : (finalizeTimer (expireTimer st hdl key) hdl key).live =
      st.live.filter (fun t => t.1 ≠ hdl) := rfl
  have htimers : (finalizeTimer (expireTimer st hdl key) hdl key).timers =
      st.timers.filter (fun e => e.1 ≠ key) := rfl
  refine ⟨?_, ?_, ?_, ?_⟩
  · rw [hlive]
    exact List.Nodup.sublist ((List.filter_sublist _).map Prod.snd) hkeys
  · intro t ht
    rw [hlive] at ht
    exact hlt t (List.mem_of_mem_filter ht)
  · intro t ht
    rw [hlive] at ht
    have htl := List.mem_of_mem_filter ht
    have hne : t.2 ≠ key := by
      intro hteq
      -- two live timers with the same key must be the same entry
      have heq : t = (hdl, key) :=
        List.inj_on_of_nodup_map hkeys htl hmem (by simpa using hteq)
      have := List.of_mem_filter ht
      rw [heq] at this
      simp at this
    rw [htimers, timersLookup_filter_ne st.timers key t.2 hne]
    exact hreg t htl
  · simp [finalizeTimer, expireTimer, hrun]

/-- One step over atomic-completion histories preserves the
invariant. -/
theorem timerStep_inv (st : TimerState) (op : TimerOp) (h : TimerInv st) :
    TimerInv (timerStep st op) := by
  cases op with
  | schedule pid => exact (scheduleRevalidate_inv st pid h).1
  | fire hdl key =>
    simp only [timerStep, timerEventStep]
    by_cases hmem : (hdl, key) ∈ st.live
    · rw [if_pos hmem]
      have hrunmem : (hdl, key) ∈ (expireTimer st hdl key).running := by
        simp [expireTimer]
      rw [if_pos hrunmem]
      exact fireAtomic_inv st hdl key hmem h
    · rw [if_neg hmem]
      have hnorun : (hdl, key) ∉ st.running := by
        rw [h.2.2.2]
        exact List.not_mem_nil _
      rw [if_neg hnorun]
      exact h

/-- The event trace that breaks the claimed invariant, starting from
the empty state: timer 0 for the root key expires and its callback
starts; a `revalidateQuietly(null)` during the callback's await window
reads the stale handle 0 (its `clearTimeout` cancels nothing pending)
and schedules timer 1; the callback's `finally` then deletes the root
key, orphaning pending timer 1; a further `revalidateQuietly(null)`
finds no map entry, cancels nothing, and schedules timer 2. -/
def timerRaceTrace : List TimerEvent :=
  [.schedule none, .expire 0 "__root__", .schedule none,
    .finalize 0 "__root__", .schedule none]

/-- Counterexample to C8 as stated: after the race trace two debounced
revalidation timers for the key `"__root__"` are pending at once, so
the per-key pending-timer keys are not duplicate-free. -/
theorem timers_overlap_counterexample :
    ((timerRaceTrace.foldl timerEventStep ⟨[], [], [], 0⟩).live =
      [(1, "__root__"), (2, "__root__")]) ∧
    ¬ ((timerRaceTrace.foldl timerEventStep ⟨[], [], [], 0⟩).live.map
        Prod.snd).Nodup := by
  constructor
  · simp [timerRaceTrace, timerEventStep, scheduleRevalidate, expireTimer,
      finalizeTimer, timersLookup, assocSet]
  · intro hnodup
    rw [show (timerRaceTrace.foldl timerEventStep ⟨[], [], [], 0⟩).live =
        [(1, "__root__"), (2, "__root__")] by
      simp [timerRaceTrace, timerEventStep, scheduleRevalidate, expireTimer,
        finalizeTimer, timersLookup, assocSet]] at hnodup
    simp at hnodup

/-- Claim C8 (amended): every `revalidateQuietly` call clears the timer
handle recorded for its key before scheduling a new one, and — for any
history of calls and timer completions in which each expired callback
reaches its deferred map-deletion (`finally`) before the next event —
at most one pending debounced revalidation timer per key exists at any
time, a further call leaving, for its own key, only the timer it just
scheduled.  When a `revalidateQuietly` for the same key interleaves a
callback's await window instead, the deferred deletion orphans the
rescheduled timer and a further call yields two pending timers for
that key (see the counterexample trace). -/
theorem timers_never_overlap (st : TimerState) (ops : List TimerOp)
    (pid : Option String) (h : TimerInv st) :
    (((ops.foldl timerStep st).live.map Prod.snd).Nodup) ∧
    (((scheduleRevalidate (ops.foldl timerStep st) pid).live.map
        Prod.snd).Nodup) ∧
    (∀ t ∈ (scheduleRevalidate (ops.foldl timerStep st) pid).live,
      t.2 = pid.getD "__root__" →
        t.1 = (ops.foldl timerStep st).nextHandle) := by
  have hfold : TimerInv (ops.foldl timerStep st) := by
    induction ops generalizing st with
    | nil => exact h
    | cons op rest ih => exact ih (timerStep st op) (timerStep_inv st op h)
  have hsched := scheduleRevalidate_inv (ops.foldl timerStep st) pid hfold
  exact ⟨hfold.1, hsched.1.1, hsched.2⟩

/-- Concrete op sequence for the C8 witness: schedule the root key
twice (the first timer must be cancelled), another key once, and
complete a stale handle (a no-op). -/
def timerExampleOps : List TimerOp :=
  [.schedule none, .schedule (some "p1"), .schedule none, .fire 0 "__root__"]

/-- Witness for the amended C8: the concrete atomic-completion history
keeps live timer keys duplicate-free, and a further schedule for the
root key leaves only the fresh handle pending for it. -/
theorem timers_never_overlap_witness :
    ((((timerExampleOps.foldl timerStep ⟨[], [], [], 0⟩).live.map
        Prod.snd).Nodup) ∧
    (((scheduleRevalidate (timerExampleOps.foldl timerStep ⟨[], [], [], 0⟩)
        none).live.map Prod.snd).Nodup) ∧
    (∀ t ∈ (scheduleRevalidate
        (timerExampleOps.foldl timerStep ⟨[], [], [], 0⟩) none).live,
      t.2 = Option.getD none "__root__" →
        t.1 = (timerExampleOps.foldl timerStep ⟨[], [], [], 0⟩).nextHandle)) :=
  timers_never_overlap ⟨[], [], [], 0⟩ timerExampleOps none
    (by unfold TimerInv; refine ⟨List.nodup_nil, ?_, ?_, rfl⟩ <;> simp)

/-! ## The key transform (src/unnamed/part_008 lines 16-60)

`transformKeys` walks a JSON-compatible value: primitives and `null`
are returned as-is (`typeof obj !== "object"`), skippable objects
(`FormData`, `Blob`, `File`, `Date`, `ArrayBuffer`/typed arrays) are
returned untouched, arrays are mapped in order, non-plain objects are
returned as-is, and plain objects are rebuilt key by key with `fromKey`
renamed to `toKey` (`newObj[newKey] = ...`, so a colliding key
overwrites the value stored at the first occurrence's position).

This tree embedding omits the `seen` set: a tree-shaped JS value has a
distinct object reference at every node, so `seenSet.has(obj)` is
always false on such values.  Reference sharing and cycles are modelled
separately by the heap embedding further below. -/

/-- The kinds of objects `isSkippableObject` recognises. -/
inductive SkipKind where
  | formData
  | blob
  | file
  | date
  | arrayBuffer
deriving DecidableEq, Repr

/-- A JSON-compatible JS value: `null`, primitives, arrays, plain
objects (association lists in insertion order), skippable opaque
payloads carrying their identity bytes, and other non-plain objects. -/
inductive JsValue where
  | vnull
  | vbool (b : Bool)
  | vnum (n : Int)
  | vstr (s : String)
  | varr (items : List JsValue)
  | vobj (fields : List (String × JsValue))
  | vskip (kind : SkipKind) (bytes : List Nat)
  | vexotic (tag : Nat)

/-- `newObj[key] = v`: overwrite the value at the key's existing
position, else append. -/
def objAssign : List (String × JsValue) → String → JsValue →
    List (String × JsValue)
  | [], k, v => [(k, v)]
  | (k2, v2) :: rest, k, v =>
    if k2 = k then (k2, v) :: rest else (k2, v2) :: objAssign rest k v

/-- `key === fromKey ? toKey : key`. -/
def renameKey (fromKey toKey k : String) : String :=
  if k = fromKey then toKey else k

mutual

/-- `transformKeys` of part_008 on tree-shaped values. -/
def transformKeys : JsValue → String → String → JsValue
  | .vnull, _, _ => .vnull
  | .vbool b, _, _ => .vbool b
  | .vnum n, _, _ => .vnum n
  | .vstr s, _, _ => .vstr s
  | .vskip k bytes, _, _ => .vskip k bytes
  | .vexotic t, _, _ => .vexotic t
  | .varr items, fromKey, toKey => .varr (transformArr items fromKey toKey)
  | .vobj fields, fromKey, toKey =>
    .vobj (transformObj fields fromKey toKey [])

/-- `obj.map((item) => transformKeys(item, ...))`. -/
def transformArr : List JsValue → String → String → List JsValue
  | [], _, _ => []
  | v :: rest, fromKey, toKey =>
    transformKeys v fromKey toKey :: transformArr rest fromKey toKey

/-- The `for (const key of Object.keys(obj))` loop building `newObj`. -/
def transformObj : List (String × JsValue) → String → String →
    List (String × JsValue) → List (String × JsValue)
  | [], _, _, acc => acc
  | (k, v) :: rest, fromKey, toKey, acc =>
    transformObj rest fromKey toKey
      (objAssign acc (renameKey fromKey toKey k)
        (transformKeys v fromKey toKey))

end

mutual

/-- No object anywhere in the value carries the key `k`. -/
def noKey (k : String) : JsValue → Bool
  | .varr items => noKeyArr k items
  | .vobj fields => noKeyFields k fields
  | _ => true

/-- `noKey` over array items. -/
def noKeyArr (k : String) : List JsValue → Bool
  | [] => true
  | v :: rest => noKey k v && noKeyArr k rest

/-- `noKey` over object fields, also requiring each field name to
differ from `k`. -/
def noKeyFields (k : String) : List (String × JsValue) → Bool
  | [] => true
  | (k2, v) :: rest => (k2 != k) && noKey k v && noKeyFields k rest

end

mutual

/-- Every object in the value has duplicate-free keys (always the case
for a value built from real JS objects). -/
def wfKeys : JsValue → Bool
  | .varr items => wfArr items
  | .vobj fields =>
    decide ((fields.map Prod.fst).Nodup) && wfFields fields
  | _ => true

/-- `wfKeys` over array items. -/
def wfArr : List JsValue → Bool
  | [] => true
  | v :: rest => wfKeys v && wfArr rest

/-- `wfKeys` over object field values. -/
def wfFields : List (String × JsValue) → Bool
  | [] => true
  | (_, v) :: rest => wfKeys v && wfFields rest

end

theorem objAssign_not_mem : ∀ (acc : List (String × JsValue)) (k : String)
    (v : JsValue), k ∉ acc.map Prod.fst →
    objAssign acc k v = acc ++ [(k, v)]
  | [], _, _, _ => rfl
  | (k2, v2) :: rest, k, v, h => by
    have hne : k2 ≠ k := by
      intro heq
      exact h (by simp [heq])
    rw [objAssign, if_neg hne,
      objAssign_not_mem rest k v (fun hh => h (by simp [hh]))]
    simp

/-- When the renamed keys are fresh for the accumulator and pairwise
distinct, the object-rebuilding loop is a plain ordered map. -/
theorem transformObj_eq_append :
    ∀ (fields : List (String × JsValue)) (fromKey toKey : String)
      (acc : List (String × JsValue)),
    (∀ e ∈ fields, renameKey fromKey toKey e.1 ∉ acc.map Prod.fst) →
    (fields.map (fun e => renameKey fromKey toKey e.1)).Nodup →
    transformObj fields fromKey toKey acc =
      acc ++ fields.map
        (fun e => (renameKey fromKey toKey e.1,
          transformKeys e.2 fromKey toKey))
  | [], _, _, acc, _, _ => by simp [transformObj]
  | (k, v) :: rest, fromKey, toKey, acc, hdisj, hnodup => by
    have hk := hdisj (k, v) (List.mem_cons_self _ _)
    have hnodup' := (List.nodup_cons.mp hnodup).2
    have hknotin : renameKey fromKey toKey k ∉
        rest.map (fun e => renameKey fromKey toKey e.1) :=
      (List.nodup_cons.mp hnodup).1
    rw [transformObj, objAssign_not_mem acc _ _ hk,
      transformObj_eq_append rest fromKey toKey
        (acc ++ [(renameKey fromKey toKey k, transformKeys v fromKey toKey)])
        ?_ hnodup']
    · simp
    · intro e he
      rw [List.map_append, List.mem_append]
      rintro (hmem | hmem)
      · exact hdisj e (List.mem_cons_of_mem _ he) hmem
      · simp only [List.map_cons, List.map_nil, List.mem_singleton] at hmem
        exact hknotin (hmem ▸ List.mem_map_of_mem _ he)

/-- Renaming `id → _id` then `_id → id` is the identity on any key
other than `_id`. -/
theorem renameKey_roundtrip (k : String) (h : k ≠ "_id") :
    renameKey "_id" "id" (renameKey "id" "_id" k) = k := by
  by_cases hk : k = "id"
  · simp [renameKey, hk]
  · simp [renameKey, hk, h]

theorem noKeyFields_mem : ∀ (fields : List (String × JsValue)),
    noKeyFields "_id" fields = true →
    ∀ e ∈ fields, e.1 ≠ "_id" ∧ noKey "_id" e.2 = true
  | [], _, e, he => absurd he (List.not_mem_nil e)
  | (k, v) :: rest, h, e, he => by
    rw [noKeyFields, Bool.and_eq_true, Bool.and_eq_true] at h
    rcases List.mem_cons.mp he with heq | hmem
    · subst heq
      exact ⟨by simpa using h.1.1, h.1.2⟩
    · exact noKeyFields_mem rest h.2 e hmem

/-- Renaming `id → _id` is injective on keys other than `_id`. -/
theorem renameKey_inj (k1 k2 : String) (h1 : k1 ≠ "_id") (h2 : k2 ≠ "_id")
    (h : renameKey "id" "_id" k1 = renameKey "id" "_id" k2) : k1 = k2 := by
  unfold renameKey at h
  by_cases ha : k1 = "id" <;> by_cases hb : k2 = "id"
  · rw [ha, hb]
  · rw [if_pos ha, if_neg hb] at h
    exact absurd h.symm h2
  · rw [if_neg ha, if_pos hb] at h
    exact absurd h h1
  · rw [if_neg ha, if_neg hb] at h
    exact h

mutual

/-- Round trip of the key transform on a value free of `_id` keys. -/
theorem roundtrip_val : ∀ (v : JsValue), noKey "_id" v = true →
    wfKeys v = true →
    transformKeys (transformKeys v "id" "_id") "_id" "id" = v
  | .vnull, _, _ => by simp [transformKeys]
  | .vbool b, _, _ => by simp [transformKeys]
  | .vnum n, _, _ => by simp [transformKeys]
  | .vstr s, _, _ => by simp [transformKeys]
  | .vskip k bytes, _, _ => by simp [transformKeys]
  | .vexotic t, _, _ => by simp [transformKeys]
  | .varr items, h1, h2 => by
    simp only [transformKeys]
    rw [roundtrip_arr items (by simpa [noKey] using h1)
      (by simpa [wfKeys] using h2)]
  | .vobj fields, h1, h2 => by
    rw [noKey] at h1
    rw [wfKeys, Bool.and_eq_true, decide_eq_true_eq] at h2
    obtain ⟨hnodup, hwf⟩ := h2
    have hmem := noKeyFields_mem fields h1
    have hnodup1 :
        (fields.map (fun e => renameKey "id" "_id" e.1)).Nodup := by
      have heq : fields.map (fun e => renameKey "id" "_id" e.1) =
          (fields.map Prod.fst).map (renameKey "id" "_id") := by
        rw [List.map_map]; rfl
      rw [heq]
      apply List.Nodup.map_on ?_ hnodup
      intro x hx y hy hxy
      obtain ⟨ex, hex, hx1⟩ := List.mem_map.mp hx
      obtain ⟨ey, hey, hy1⟩ := List.mem_map.mp hy
      rw [← hx1, ← hy1] at hxy ⊢
      exact renameKey_inj ex.1 ey.1 (hmem ex hex).1 (hmem ey hey).1 hxy
    have stepA : transformKeys (.vobj fields) "id" "_id" =
        .vobj (fields.map (fun e => (renameKey "id" "_id" e.1,
          transformKeys e.2 "id" "_id"))) := by
      simp only [transformKeys]
      rw [transformObj_eq_append fields "id" "_id" [] (by simp) hnodup1]
      rw [List.nil_append]
    have hcomp : (fields.map (fun e => (renameKey "id" "_id" e.1,
          transformKeys e.2 "id" "_id"))).map
            (fun e => renameKey "_id" "id" e.1) =
        fields.map Prod.fst := by
      rw [List.map_map]
      apply List.map_congr_left
      intro e he
      exact renameKey_roundtrip e.1 (hmem e he).1
    have hnodup2 : ((fields.map (fun e => (renameKey "id" "_id" e.1,
          transformKeys e.2 "id" "_id"))).map
            (fun e => renameKey "_id" "id" e.1)).Nodup := by
      rw [hcomp]
      exact hnodup
    have stepB : transformKeys (.vobj (fields.map
          (fun e => (renameKey "id" "_id" e.1,
            transformKeys e.2 "id" "_id")))) "_id" "id" =
        .vobj ((fields.map (fun e => (renameKey "id" "_id" e.1,
          transformKeys e.2 "id" "_id"))).map
            (fun e => (renameKey "_id" "id" e.1,
              transformKeys e.2 "_id" "id"))) := by
      simp only [transformKeys]
      rw [transformObj_eq_append _ "_id" "id" [] (by simp) hnodup2]
      rw [List.nil_append]
    rw [stepA, stepB, List.map_map]
    have hfinal : fields.map ((fun e => (renameKey "_id" "id" e.1,
          transformKeys e.2 "_id" "id")) ∘
        (fun e => (renameKey "id" "_id" e.1,
          transformKeys e.2 "id" "_id"))) =
        fields.map (fun e => (e.1,
          transformKeys (transformKeys e.2 "id" "_id") "_id" "id")) := by
      apply List.map_congr_left
      intro e he
      simp only [Function.comp]
      rw [renameKey_roundtrip e.1 (hmem e he).1]
    rw [hfinal, roundtrip_fields fields h1 hwf]

/-- Round trip of the key transform over array items. -/
theorem roundtrip_arr : ∀ (items : List JsValue),
    noKeyArr "_id" items = true → wfArr items = true →
    transformArr (transformArr items "id" "_id") "_id" "id" = items
  | [], _, _ => by simp [transformArr]
  | v :: rest, h1, h2 => by
    rw [noKeyArr, Bool.and_eq_true] at h1
    rw [wfArr, Bool.and_eq_true] at h2
    simp only [transformArr]
    rw [roundtrip_val v h1.1 h2.1, roundtrip_arr rest h1.2 h2.2]

/-- Round trip of the key transform over object field values. -/
theorem roundtrip_fields : ∀ (fields : List (String × JsValue)),
    noKeyFields "_id" fields = true → wfFields fields = true →
    fields.map (fun e => (e.1,
      transformKeys (transformKeys e.2 "id" "_id") "_id" "id")) = fields
  | [], _, _ => by simp
  | (k, v) :: rest, h1, h2 => by
    rw [noKeyFields, Bool.and_eq_true, Bool.and_eq_true] at h1
    rw [wfFields, Bool.and_eq_true] at h2
    simp only [List.map_cons]
    rw [roundtrip_val v h1.1.2 h2.1, roundtrip_fields rest h1.2 h2.2]

end

/-- Concrete C1 counterexample input: the plain object with the single
key `_id` (a perfectly JSON-compatible value). -/
def roundtripCE : JsValue := .vobj [("_id", .vnum 0)]

/-- Counterexample to C1 as stated: transforming the object with key
`_id` through `id → _id` and then `_id → id` yields the object with key
`id`, which is not deeply equal to the original. -/
theorem transform_roundtrip_counterexample :
    transformKeys (transformKeys roundtripCE "id" "_id") "_id" "id" =
      .vobj [("id", .vnum 0)] ∧
    transformKeys (transformKeys roundtripCE "id" "_id") "_id" "id" ≠
      roundtripCE := by
  constructor <;>
    simp [roundtripCE, transformKeys, transformObj, objAssign, renameKey]

/-- Claim C1 (amended): for every JSON-compatible value whose objects
have duplicate-free keys and in which no object carries the key `_id`,
applying the `id → _id` transform and then the `_id → id` transform
yields a value deeply equal to the original; and the transform returns
every embedded multipart/binary/date value byte-identical and
untouched in a single pass, for any key pair. -/
theorem transform_roundtrip_spec (v : JsValue)
    (h1 : noKey "_id" v = true) (h2 : wfKeys v = true) :
    transformKeys (transformKeys v "id" "_id") "_id" "id" = v ∧
    ∀ (sk : SkipKind) (bytes : List Nat) (fromKey toKey : String),
      transformKeys (JsValue.vskip sk bytes) fromKey toKey =
        JsValue.vskip sk bytes :=
  ⟨roundtrip_val v h1 h2, fun _ _ _ _ => by simp [transformKeys]⟩

/-- Concrete nested value for the C1 witness: objects, an array, and
embedded binary/date payloads, with no `_id` key anywhere. -/
def roundtripExample : JsValue :=
  .vobj [("id", .vstr "abc"),
    ("items", .varr [.vobj [("id", .vnum 1), ("name", .vstr "n"),
      ("blob", .vskip .blob [1, 2, 3]),
      ("when", .vskip .date [7])]]),
    ("count", .vnum 2), ("flag", .vbool true), ("missing", .vnull)]

/-- Witness for the amended C1: the concrete nested value round-trips
to itself with its opaque payloads untouched. -/
theorem transform_roundtrip_spec_witness :
    transformKeys (transformKeys roundtripExample "id" "_id") "_id" "id" =
      roundtripExample ∧
    ∀ (sk : SkipKind) (bytes : List Nat) (fromKey toKey : String),
      transformKeys (JsValue.vskip sk bytes) fromKey toKey =
        JsValue.vskip sk bytes :=
  transform_roundtrip_spec roundtripExample
    (by simp [roundtripExample, noKey, noKeyArr, noKeyFields])
    (by simp [roundtripExample, wfKeys, wfArr, wfFields])

/-! ## Heap embedding of the key transform (cycle safety)

The `seen` `WeakSet` of part_008's `transformKeys` only matters when
object references are shared or cyclic, which a tree of Lean values
cannot express.  This second embedding grounds values in an explicit
heap: an `HVal` is a primitive or a reference into a list of heap
nodes, which may be arbitrarily cyclic.  `transformRef` mirrors
`transformKeys` on this representation, threading the `seen` set
through the traversal exactly as the mutated `WeakSet` is; the `fuel`
argument is a bookkeeping device consumed only when an unseen reference
is entered, so a sufficiently large fuel never runs out — which is the
termination claim. -/

/-- Primitive JS values (`typeof obj !== "object"`, plus `null`). -/
inductive HPrim where
  | hnull
  | hbool (b : Bool)
  | hnum (n : Int)
  | hstr (s : String)
deriving DecidableEq, Repr

/-- A JS value in the heap embedding: a primitive or an object
reference. -/
inductive HVal where
  | hprim (p : HPrim)
  | href (r : Nat)
deriving DecidableEq, Repr

/-- A heap node: an array, a plain object, a skippable object, or a
non-plain (`!isPlainObject`) object. -/
inductive HNode where
  | harr (items : List HVal)
  | hobj (fields : List (String × HVal))
  | hskip (kind : SkipKind) (bytes : List Nat)
  | hexotic (tag : Nat)
deriving DecidableEq, Repr

/-- `isSkippableObject` on heap nodes. -/
def skippableNode : HNode → Bool
  | .hskip _ _ => true
  | _ => false

/-- The value returned by a transform pass over the heap: a fresh tree
whose leaves are primitives or references to original (skipped,
already-seen, or non-plain) heap objects. -/
inductive TOut where
  | oprim (p : HPrim)
  | oref (r : Nat)
  | oarr (items : List TOut)
  | oobj (fields : List (String × TOut))

/-- `newObj[key] = v` on transform outputs. -/
def objAssignO : List (String × TOut) → String → TOut →
    List (String × TOut)
  | [], k, v => [(k, v)]
  | (k2, v2) :: rest, k, v =>
    if k2 = k then (k2, v) :: rest else (k2, v2) :: objAssignO rest k v

/-- Rebuild a plain object from the renamed-and-transformed fields in
iteration order. -/
def buildObjO (ofs : List (String × TOut)) : List (String × TOut) :=
  ofs.foldl (fun acc e => objAssignO acc e.1 e.2) []

mutual

/-- `transformKeys` over heap values: primitives returned as-is,
skippable objects returned before the `seen` check, already-seen
references returned as-is, and otherwise the reference is added to
`seen` and its node is an array (mapped in order), a plain object
(rebuilt with the key renamed), or a non-plain object (returned
as-is).  `fuel` is consumed exactly when an unseen reference is
entered. -/
def transformRef (heap : List HNode) (fromKey toKey : String) :
    Nat → List Nat → HVal → Option (TOut × List Nat)
  | _, seen, .hprim p => some (.oprim p, seen)
  | fuel, seen, .href r =>
    match heap[r]? with
    | none => some (.oref r, seen)
    | some node =>
      if skippableNode node then some (.oref r, seen)
      else if r ∈ seen then some (.oref r, seen)
      else
        match fuel, node with
        | 0, _ => none
        | fuel' + 1, .harr items =>
          (transformRefArr heap fromKey toKey fuel' (r :: seen) items).map
            (fun res => (.oarr res.1, res.2))
        | fuel' + 1, .hobj fields =>
          (transformRefFields heap fromKey toKey fuel' (r :: seen)
            fields).map (fun res => (.oobj (buildObjO res.1), res.2))
        | _ + 1, _ => some (.oref r, r :: seen)

/-- Array items, transformed left to right with the threaded `seen`. -/
def transformRefArr (heap : List HNode) (fromKey toKey : String) :
    Nat → List Nat → List HVal → Option (List TOut × List Nat)
  | _, seen, [] => some ([], seen)
  | fuel, seen, v :: rest =>
    match transformRef heap fromKey toKey fuel seen v with
    | none => none
    | some (o, seen1) =>
      match transformRefArr heap fromKey toKey fuel seen1 rest with
      | none => none
      | some (os, seen2) => some (o :: os, seen2)

/-- Object fields, renamed and transformed in key order with the
threaded `seen`. -/
def transformRefFields (heap : List HNode) (fromKey toKey : String) :
    Nat → List Nat → List (String × HVal) →
    Option (List (String × TOut) × List Nat)
  | _, seen, [] => some ([], seen)
  | fuel, seen, (k, v) :: rest =>
    match transformRef heap fromKey toKey fuel seen v with
    | none => none
    | some (o, seen1) =>
      match transformRefFields heap fromKey toKey fuel seen1 rest with
      | none => none
      | some (os, seen2) =>
        some ((renameKey fromKey toKey k, o) :: os, seen2)

end

/-- The `seen` set holds pairwise-distinct references into the heap. -/
def SeenOk (heap : List HNode) (seen : List Nat) : Prop :=
  seen.Nodup ∧ ∀ r ∈ seen, r < heap.length

theorem SeenOk.length_le (heap : List HNode) (seen : List Nat)
    (h : SeenOk heap seen) : seen.length ≤ heap.length := by
  have hcard : seen.toFinset.card = seen.length :=
    List.toFinset_card_of_nodup h.1
  have hsub : seen.toFinset ⊆ Finset.range heap.length := by
    intro x hx
    rw [List.mem_toFinset] at hx
    rw [Finset.mem_range]
    exact h.2 x hx
  calc seen.length = seen.toFinset.card := hcard.symm
    _ ≤ (Finset.range heap.length).card := Finset.card_le_card hsub
    _ = heap.length := Finset.card_range _

/-- Totality statement for `transformRef` at a given fuel. -/
def RefTotal (heap : List HNode) (fk tk : String) (fuel : Nat) : Prop :=
  ∀ (seen : List Nat) (v : HVal), SeenOk heap seen →
    heap.length < fuel + seen.length →
    ∃ o seen2, transformRef heap fk tk fuel seen v = some (o, seen2) ∧
      SeenOk heap seen2 ∧ ∃ pre, seen2 = pre ++ seen

theorem arrTotal_of_refTotal (heap : List HNode) (fk tk : String)
    (fuel : Nat) (hA : RefTotal heap fk tk fuel) :
    ∀ (l : List HVal) (seen : List Nat), SeenOk heap seen →
      heap.length < fuel + seen.length →
      ∃ os seen2,
        transformRefArr heap fk tk fuel seen l = some (os, seen2) ∧
        SeenOk heap seen2 ∧ ∃ pre, seen2 = pre ++ seen := by
  intro l
  induction l with
  | nil =>
    intro seen hok hbound
    exact ⟨[], seen, by simp [transformRefArr], hok, [], rfl⟩
  | cons v rest ih =>
    intro seen hok hbound
    obtain ⟨o, s1, he1, hok1, pre1, hpre1⟩ := hA seen v hok hbound
    have hbound1 : heap.length < fuel + s1.length := by
      rw [hpre1, List.length_append]
      omega
    obtain ⟨os, s2, he2, hok2, pre2, hpre2⟩ := ih s1 hok1 hbound1
    refine ⟨o :: os, s2, ?_, hok2, pre2 ++ pre1, ?_⟩
    · simp [transformRefArr, he1, he2]
    · rw [hpre2, hpre1, List.append_assoc]

theorem fieldsTotal_of_refTotal (heap : List HNode) (fk tk : String)
    (fuel : Nat) (hA : RefTotal heap fk tk fuel) :
    ∀ (l : List (String × HVal)) (seen : List Nat), SeenOk heap seen →
      heap.length < fuel + seen.length →
      ∃ os seen2,
        transformRefFields heap fk tk fuel seen l = some (os, seen2) ∧
        SeenOk heap seen2 ∧ ∃ pre, seen2 = pre ++ seen := by
  intro l
  induction l with
  | nil =>
    intro seen hok hbound
    exact ⟨[], seen, by simp [transformRefFields], hok, [], rfl⟩
  | cons e rest ih =>
    intro seen hok hbound
    obtain ⟨o, s1, he1, hok1, pre1, hpre1⟩ := hA seen e.2 hok hbound
    have hbound1 : heap.length < fuel + s1.length := by
      rw [hpre1, List.length_append]
      omega
    obtain ⟨os, s2, he2, hok2, pre2, hpre2⟩ := ih s1 hok1 hbound1
    refine ⟨(renameKey fk tk e.1, o) :: os, s2, ?_, hok2, pre2 ++ pre1, ?_⟩
    · obtain ⟨k, v⟩ := e
      simp [transformRefFields, he1, he2]
    · rw [hpre2, hpre1, List.append_assoc]

/-- At every fuel level, `transformRef` succeeds whenever the fuel
exceeds the number of not-yet-seen heap nodes — in particular for
arbitrary, even cyclic heaps. -/
theorem refTotal_all (heap : List HNode) (fk tk : String) :
    ∀ fuel, RefTotal heap fk tk fuel := by
  intro fuel
  induction fuel using Nat.strong_induction_on with
  | _ fuel IH =>
    intro seen v hok hbound
    match v with
    | .hprim p =>
      exact ⟨.oprim p, seen, by simp [transformRef], hok, [], rfl⟩
    | .href r =>
      cases hr : heap[r]? with
      | none =>
        exact ⟨.oref r, seen, by simp [transformRef, hr], hok, [], rfl⟩
      | some node =>
        by_cases hskip : skippableNode node = true
        · exact ⟨.oref r, seen, by simp [transformRef, hr, hskip], hok,
            [], rfl⟩
        · by_cases hseen : r ∈ seen
          · exact ⟨.oref r, seen,
              by simp [transformRef, hr, hskip, hseen], hok, [], rfl⟩
          · have hrlt : r < heap.length :=
              (List.getElem?_eq_some_iff.mp hr).1
            have hok' : SeenOk heap (r :: seen) := by
              refine ⟨List.nodup_cons.mpr ⟨hseen, hok.1⟩, ?_⟩
              intro x hx
              rcases List.mem_cons.mp hx with h | h
              · exact h ▸ hrlt
              · exact hok.2 x h
            have hlen : (r :: seen).length ≤ heap.length :=
              SeenOk.length_le heap (r :: seen) hok'
            simp only [List.length_cons] at hlen
            obtain ⟨fuel', rfl⟩ : ∃ fuel', fuel = fuel' + 1 := by
              cases fuel with
              | zero => omega
              | succ f => exact ⟨f, rfl⟩
            have hbound' : heap.length < fuel' + (r :: seen).length := by
              simp only [List.length_cons]
              omega
            have hIH : RefTotal heap fk tk fuel' :=
              IH fuel' (Nat.lt_succ_self fuel')
            cases node with
            | harr items =>
              obtain ⟨os, s2, he, hok2, pre, hpre⟩ :=
                arrTotal_of_refTotal heap fk tk fuel' hIH items (r :: seen)
                  hok' hbound'
              refine ⟨.oarr os, s2, ?_, hok2, pre ++ [r], ?_⟩
              · simp [transformRef, hr, hskip, hseen, he]
              · rw [hpre, List.append_assoc]
                rfl
            | hobj fields =>
              obtain ⟨os, s2, he, hok2, pre, hpre⟩ :=
                fieldsTotal_of_refTotal heap fk tk fuel' hIH fields
                  (r :: seen) hok' hbound'
              refine ⟨.oobj (buildObjO os), s2, ?_, hok2, pre ++ [r], ?_⟩
              · simp [transformRef, hr, hskip, hseen, he]
              · rw [hpre, List.append_assoc]
                rfl
            | hskip k b => simp [skippableNode] at hskip
            | hexotic t =>
              refine ⟨.oref r, r :: seen, ?_, hok', [r], rfl⟩
              simp [transformRef, hr, hskip, hseen]

theorem transformArr_eq_map : ∀ (items : List JsValue)
    (fromKey toKey : String),
    transformArr items fromKey toKey =
      items.map (fun x => transformKeys x fromKey toKey)
  | [], _, _ => by simp [transformArr]
  | v :: rest, fromKey, toKey => by
    simp only [transformArr, List.map_cons]
    rw [transformArr_eq_map rest fromKey toKey]

/-- Claim C2: a single pass of the key transform maps arrays in order
(element `i` of the result is the transform of element `i` of the
input), returns every non-plain-object value — skippable
multipart/binary/date payloads, non-plain objects, and primitives —
unchanged, and on the heap embedding (which can express shared and
cyclic references) it visits each object at most once per transform:
with fuel exceeding the heap size it never exhausts the fuel, so the
traversal terminates on every heap, and the set of visited references
stays duplicate-free. -/
theorem transform_single_pass_spec (fromKey toKey : String) :
    (∀ (items : List JsValue),
      transformKeys (JsValue.varr items) fromKey toKey =
        JsValue.varr (items.map (fun x => transformKeys x fromKey toKey))) ∧
    (∀ (sk : SkipKind) (bytes : List Nat),
      transformKeys (JsValue.vskip sk bytes) fromKey toKey =
        JsValue.vskip sk bytes) ∧
    (∀ (tag : Nat),
      transformKeys (JsValue.vexotic tag) fromKey toKey =
        JsValue.vexotic tag) ∧
    (transformKeys JsValue.vnull fromKey toKey = JsValue.vnull) ∧
    (∀ (heap : List HNode) (v : HVal),
      ∃ o seen2,
        transformRef heap fromKey toKey (heap.length + 1) [] v =
          some (o, seen2) ∧ seen2.Nodup) := by
  refine ⟨?_, ?_, ?_, ?_, ?_⟩
  · intro items
    simp only [transformKeys]
    rw [transformArr_eq_map]
  · intro sk bytes
    simp [transformKeys]
  · intro tag
    simp [transformKeys]
  · simp [transformKeys]
  · intro heap v
    obtain ⟨o, seen2, he, hok, _⟩ :=
      refTotal_all heap fromKey toKey (heap.length + 1) [] v
        ⟨List.nodup_nil, by simp⟩ (by simp)
    exact ⟨o, seen2, he, hok.1⟩

end FileManager
